import Mathlib

/-!
Verification of the ESP32 promiscuous-mode sniffer firmware
(`esp32_sniffer_main.ino`) against its natural-language specification.

The firmware is shallowly embedded: the bounded FreeRTOS packet queue is a
`List RawPacket` with explicit capacity, the shared device table a
`List Device`, and each task body a pure function on that state.  Machine
times (`millis()`) are passed in explicitly as `Nat` arguments.
-/

namespace Sniffer

/-- Configuration constant `PRINT_INTERVAL` (ms between export cycles). -/
def PRINT_INTERVAL : Nat := 100

/-- Configuration constant `PURGE_INTERVAL` (ms before a record is stale). -/
def PURGE_INTERVAL : Nat := 10000

/-- Configuration constant `QUEUE_SIZE` (capacity of the packet queue). -/
def QUEUE_SIZE : Nat := 64

/-- A 6-byte hardware address, as the list of its byte values. -/
abbrev Mac := List Nat

/-- `struct RawPacket`: the element type of the ingestion queue.
`typeCode`: 0 = Unknown, 1 = Router, 2 = Station, 3 = Deauth. -/
structure RawPacket where
  mac : Mac
  rssi : Int
  typeCode : Nat
deriving DecidableEq, Repr

/-- `struct Device`: one record of the shared device table. -/
structure Device where
  mac : Mac
  rssi : Int
  lastSeen : Nat
  typeCode : Nat
deriving DecidableEq, Repr

/-- The `rx_ctrl` metadata of a captured frame (`wifi_pkt_rx_ctrl_t`):
the reported signal length and the RSSI. -/
structure RxCtrl where
  sig_len : Nat
  rssi : Int
deriving DecidableEq, Repr

/-- A captured promiscuous-mode frame (`wifi_promiscuous_pkt_t`):
metadata plus the payload bytes. -/
structure PromiscPkt where
  rx_ctrl : RxCtrl
  payload : List Nat
deriving DecidableEq, Repr

/-- Modelled from the spec: the FreeRTOS call `xQueueSendFromISR` with no
wait time on a queue created with capacity `QUEUE_SIZE` — the item is
appended at the back if a slot is free, otherwise the call returns at once
and the item is dropped with the queue unchanged. -/
def xQueueSendFromISR (q : List RawPacket) (p : RawPacket) : List RawPacket :=
  if q.length < QUEUE_SIZE then q ++ [p] else q

/-- The classification decision in `wifi_promiscuous_rx_cb` (lines 62-76):
from the frame-control byte, the type code together with the byte offset of
the 6-byte identity address.  `macAddrPos` starts at `&data[10]` and every
branch that assigns it assigns `&data[10]` again, so the offset is 10 in
all five cases. -/
def classifyFrame (frameControl : Nat) : Nat × Nat :=
  if frameControl = 0x80 then (1, 10)
  else if frameControl = 0x40 then (2, 10)
  else if frameControl = 0xC0 then (3, 10)
  else if frameControl &&& 0x0C = 0x08 then (2, 10)
  else (0, 10)

/-- `wifi_promiscuous_rx_cb` (producer): drop frames with
`sig_len < 24`, otherwise classify `data[0]`, copy 6 bytes of address from
the classifier's offset, and send the packet to the queue. -/
def wifi_promiscuous_rx_cb (pkt : PromiscPkt) (packetQueue : List RawPacket) :
    List RawPacket :=
  if pkt.rx_ctrl.sig_len < 24 then packetQueue
  else
    let data := pkt.payload
    let frameControl := data.getD 0 0
    let tcOff := classifyFrame frameControl
    let newPacket : RawPacket :=
      ⟨(data.drop tcOff.2).take 6, pkt.rx_ctrl.rssi, tcOff.1⟩
    xQueueSendFromISR packetQueue newPacket

/-- The classification-escalation rule of `processingTask` (lines 104-109):
current record code `dcode`, new observation code `pcode`. -/
def escalate (dcode pcode : Nat) : Nat :=
  if pcode = 3 then 3
  else if dcode ≠ 3 ∧ (dcode = 0 ∨ pcode = 1) then pcode
  else dcode

/-- The in-place update of a matching record in `processingTask`:
`rssi` and `lastSeen` are always overwritten, the type code escalates. -/
def updateDevice (d : Device) (pkt : RawPacket) (now : Nat) : Device :=
  { d with rssi := pkt.rssi, lastSeen := now,
           typeCode := escalate d.typeCode pkt.typeCode }

/-- The fresh record built by `processingTask` for a first-seen address. -/
def mkDevice (pkt : RawPacket) (now : Nat) : Device :=
  ⟨pkt.mac, pkt.rssi, now, pkt.typeCode⟩

/-- One iteration of `processingTask`'s critical section: scan the table
for the packet's address, update the first matching record in place,
otherwise push a new record at the back. -/
def processPacket : List Device → RawPacket → Nat → List Device
  | [], pkt, now => [mkDevice pkt now]
  | d :: rest, pkt, now =>
    if d.mac = pkt.mac then updateDevice d pkt now :: rest
    else d :: processPacket rest pkt now

/-- The aggregator applied to a whole sequence of dequeued observations,
each paired with the `millis()` value at its processing time. -/
def applyAll (tbl : List Device) (obs : List (RawPacket × Nat)) : List Device :=
  obs.foldl (fun t p => processPacket t p.1 p.2) tbl

/-- One pass of `outputTask`'s critical section (lines 149-176) at time
`now`: first component the records included in this cycle's snapshot (every
current record, in table order), second component the table left behind
(records whose age exceeds `PURGE_INTERVAL` are erased as the iterator
passes them, after being included). -/
def exportCycle : List Device → Nat → List Device × List Device
  | [], _ => ([], [])
  | d :: rest, now =>
    let timeSince := now - d.lastSeen
    let r := exportCycle rest now
    (d :: r.1, if PURGE_INTERVAL < timeSince then r.2 else d :: r.2)

/-- The `type` string printed by `outputTask` for a record's type code. -/
def typeString (tc : Nat) : String :=
  if tc = 1 then "ROUTER"
  else if tc = 2 then "STATION"
  else if tc = 3 then "DEAUTH"
  else "Unknown"

/-- One lowercase hexadecimal digit, as printed by `String(x, HEX)`. -/
def hexChar (n : Nat) : Char :=
  if n < 10 then Char.ofNat (48 + n) else Char.ofNat (97 + (n - 10))

/-- `String(b, HEX)` for a byte value: one digit below 16, else two. -/
def byteHex (b : Nat) : String :=
  if b < 16 then String.singleton (hexChar b)
  else String.singleton (hexChar (b / 16)) ++ String.singleton (hexChar (b % 16))

/-- `macToString` (lines 38-46): six zero-padded lowercase hex octets
joined by colons. -/
def macToString (mac : Mac) : String :=
  (List.range 6).foldl
    (fun s i =>
      let b := mac.getD i 0
      s ++ (if b < 16 then ("0") else ("")) ++ byteHex b ++
        (if i < 5 then (":") else ("")))
    ("")

/-- The JSON object printed for one device by `outputTask`
(lines 154-167), with `timeSince = now - lastSeen`. -/
def deviceJson (d : Device) (now : Nat) : String :=
  "\x7b\"mac\":\"" ++ macToString d.mac ++ "\",\"rssi\":" ++ toString d.rssi ++
    ",\"type\":\"" ++ typeString d.typeCode ++ "\",\"seen_ms\":" ++
    toString (now - d.lastSeen) ++ "\x7d"

/-- The full snapshot line printed by one `outputTask` cycle over the
records it included. -/
def snapshotJson (snap : List Device) (now : Nat) : String :=
  "\x7b\"devices\":[" ++
    String.intercalate (",") (snap.map (fun d => deviceJson d now)) ++ "]\x7d"

/-- Modelled from the spec: Arduino `isspace`-style whitespace test used by
`String::trim`. -/
def isSpaceChar (c : Char) : Bool :=
  c = ' ' ∨ c = '\t' ∨ c = '\n' ∨ c = '\r' ∨ c = '\x0b' ∨ c = '\x0c'

/-- Modelled from the spec: Arduino `String::trim`, which removes leading
and trailing whitespace. -/
def trimString (s : String) : String :=
  String.mk (((s.data.dropWhile isSpaceChar).reverse.dropWhile isSpaceChar).reverse)

/-- ASCII lower-casing of one character, as used by Arduino
`String::equalsIgnoreCase`. -/
def lowerChar (c : Char) : Char :=
  if 'A' ≤ c ∧ c ≤ 'Z' then Char.ofNat (c.toNat + 32) else c

/-- Modelled from the spec: Arduino `String::equalsIgnoreCase`,
case-insensitive equality of two strings. -/
def equalsIgnoreCase (a b : String) : Bool :=
  a.data.map lowerChar == b.data.map lowerChar

/-- The `CLEAR` branch of `serialInputTask` (lines 225-233): trim the line,
compare case-insensitively against `CLEAR`; on a match clear the table and
acknowledge, otherwise (for this branch) leave the table alone. -/
def serialClearCmd (line : String) (foundDevices : List Device) :
    List Device × Option String :=
  let cmd := trimString line
  if equalsIgnoreCase cmd ("CLEAR") then
    ([], some ("\x7b\"msg\":\"Database Cleared\"\x7d"))
  else (foundDevices, none)

/-- The `HOP_SPEED` branch of `serialInputTask` (lines 261-270): the parsed
value updates `hopInterval` only inside `[10, 5000]`; outside, an error
message is printed and the interval is unchanged. -/
def hopSpeedCmd (hopInterval : Int) (val : Int) : Int × String :=
  if 10 ≤ val ∧ val ≤ 5000 then
    (val, "\x7b\"msg\":\"Hop Speed set to " ++ toString val ++ "ms\"\x7d")
  else
    (hopInterval, "\x7b\"msg\":\"Error: Speed must be 10-5000ms\"\x7d")

/-- The `foundDevices.clear()` operation of the `CLEAR` command. -/
def clearTable (_tbl : List Device) : List Device := []

/-- Priority rank of a type code under the spec's order
DEAUTH > ROUTER > STATION > UNKNOWN. -/
def rank (c : Nat) : Nat :=
  if c = 3 then 3 else if c = 1 then 2 else if c = 2 then 1 else 0

/-- The type code of a given priority rank (inverse of `rank` on valid
codes). -/
def unrank (r : Nat) : Nat :=
  if r = 3 then 3 else if r = 2 then 1 else if r = 1 then 2 else 0

/-- The zero-padded two-character hex form of one byte, exactly the text
appended for one octet by `macToString`. -/
def hexPair (b : Nat) : String := (if b < 16 then ("0") else ("")) ++ byteHex b

/-- The largest priority rank occurring in a list of type codes. -/
def maxRankFold (l : List Nat) : Nat := l.foldl (fun r c => max r (rank c)) 0

/-! ### Basic facts about the classifier and producer -/

theorem classifyFrame_snd (fc : Nat) : (classifyFrame fc).2 = 10 := by
  unfold classifyFrame
  split_ifs <;> rfl

theorem classifyFrame_fst (fc : Nat) :
    (classifyFrame fc).1 =
      (if fc = 0x80 then 1
       else if fc = 0x40 then 2
       else if fc = 0xC0 then 3
       else if fc &&& 0x0C = 0x08 then 2
       else 0) := by
  unfold classifyFrame
  split_ifs <;> rfl

/-- C6: a captured frame whose reported length cannot cover the fixed
address offset (10) plus 6 address bytes is discarded by the producer
before classification: the queue is returned unchanged, so nothing is
enqueued, no error is surfaced and the frame is never retried. -/
theorem rx_cb_undersized_frame_discarded (pkt : PromiscPkt) (q : List RawPacket)
    (h : pkt.rx_ctrl.sig_len < 10 + 6) :
    wifi_promiscuous_rx_cb pkt q = q := by
  unfold wifi_promiscuous_rx_cb
  rw [if_pos (by omega)]

theorem rx_cb_undersized_frame_discarded_witness :
    wifi_promiscuous_rx_cb ⟨⟨12, -40⟩, [0x80, 0, 0, 0, 0, 0, 0, 0, 0, 0, 1, 2]⟩ [] = [] :=
  rx_cb_undersized_frame_discarded _ _ (by decide)

/-- C7: sending to the ingestion queue when it already holds
`QUEUE_SIZE` items drops the new observation and returns the queue
unchanged (no blocking, no error, contents and FIFO order intact), while
any send below capacity appends at the back, preserving capture order. -/
theorem queue_full_enqueue_drops (q : List RawPacket) (p : RawPacket)
    (hfull : q.length = QUEUE_SIZE) :
    xQueueSendFromISR q p = q ∧
    (∀ q' : List RawPacket, ∀ p' : RawPacket,
        q'.length < QUEUE_SIZE → xQueueSendFromISR q' p' = q' ++ [p']) := by
  constructor
  · unfold xQueueSendFromISR
    rw [if_neg (by omega)]
  · intro q' p' h'
    unfold xQueueSendFromISR
    rw [if_pos h']

theorem queue_full_enqueue_drops_witness :
    xQueueSendFromISR (List.replicate 64 ⟨[0, 0, 0, 0, 0, 0], 0, 0⟩)
        ⟨[1, 1, 1, 1, 1, 1], -7, 2⟩ =
      List.replicate 64 ⟨[0, 0, 0, 0, 0, 0], 0, 0⟩ :=
  (queue_full_enqueue_drops _ _ (by simp [QUEUE_SIZE])).1

/-- C2: for every sufficiently long frame, the producer classifies the
frame-control byte by the fixed first-match decision list (0x80 → ROUTER,
0x40 → STATION, 0xC0 → DEAUTH, data-category bits → STATION, otherwise
UNKNOWN), extracts the 6-byte identity from offset 10 in every case, and
enqueues exactly that observation; the classifier is a pure function. -/
theorem rx_cb_classifier_decision_list (pkt : PromiscPkt) (q : List RawPacket)
    (hlen : 24 ≤ pkt.rx_ctrl.sig_len) :
    (∀ fc, (classifyFrame fc).2 = 10) ∧
    wifi_promiscuous_rx_cb pkt q =
      xQueueSendFromISR q
        ⟨(pkt.payload.drop 10).take 6, pkt.rx_ctrl.rssi,
          (if pkt.payload.getD 0 0 = 0x80 then 1
           else if pkt.payload.getD 0 0 = 0x40 then 2
           else if pkt.payload.getD 0 0 = 0xC0 then 3
           else if pkt.payload.getD 0 0 &&& 0x0C = 0x08 then 2
           else 0)⟩ := by
  refine ⟨classifyFrame_snd, ?_⟩
  unfold wifi_promiscuous_rx_cb
  rw [if_neg (by omega)]
  simp only [classifyFrame_snd, classifyFrame_fst]

theorem rx_cb_classifier_decision_list_witness :
    wifi_promiscuous_rx_cb
        ⟨⟨24, -33⟩, [0x80, 0, 0, 0, 0, 0, 0, 0, 0, 0, 10, 11, 12, 13, 14, 15, 16, 17, 18, 19, 20, 21, 22, 23]⟩ [] =
      xQueueSendFromISR [] ⟨[10, 11, 12, 13, 14, 15], -33,
        (if (0x80 : Nat) = 0x80 then 1
         else if (0x80 : Nat) = 0x40 then 2
         else if (0x80 : Nat) = 0xC0 then 3
         else if (0x80 : Nat) &&& 0x0C = 0x08 then 2
         else 0)⟩ :=
  (rx_cb_classifier_decision_list _ _ (by decide)).2

/-- C8: a `HOP_SPEED` value updates the hop interval exactly when it lies
in the accepted range `[10, 5000]`; any out-of-range value leaves the
interval unchanged and produces the explicit error acknowledgment. -/
theorem hop_speed_bounded_range (hop val : Int) :
    (10 ≤ val ∧ val ≤ 5000 →
      hopSpeedCmd hop val =
        (val, "\x7b\"msg\":\"Hop Speed set to " ++ toString val ++ "ms\"\x7d")) ∧
    (¬(10 ≤ val ∧ val ≤ 5000) →
      hopSpeedCmd hop val =
        (hop, "\x7b\"msg\":\"Error: Speed must be 10-5000ms\"\x7d")) ∧
    ((hopSpeedCmd hop val).1 ≠ hop → 10 ≤ val ∧ val ≤ 5000) := by
  refine ⟨fun h => ?_, fun h => ?_, fun h => ?_⟩
  · unfold hopSpeedCmd
    rw [if_pos h]
  · unfold hopSpeedCmd
    rw [if_neg h]
  · by_contra hout
    unfold hopSpeedCmd at h
    rw [if_neg hout] at h
    exact h rfl

theorem hop_speed_bounded_range_witness :
    hopSpeedCmd 50 100 =
      (100, "\x7b\"msg\":\"Hop Speed set to " ++ toString (100 : Int) ++ "ms\"\x7d") ∧
    hopSpeedCmd 50 9999 =
      (50, "\x7b\"msg\":\"Error: Speed must be 10-5000ms\"\x7d") :=
  ⟨(hop_speed_bounded_range 50 100).1 (by decide),
   (hop_speed_bounded_range 50 9999).2.1 (by decide)⟩

/-- C10: the clear-table command is matched case-insensitively after
trimming surrounding whitespace — every line whose trimmed, lower-cased
text is `clear` empties the table and emits the acknowledgment, not only
the exact uppercase token. -/
theorem serial_clear_case_insensitive (line : String) (tbl : List Device)
    (h : (trimString line).data.map lowerChar = ("clear").data) :
    serialClearCmd line tbl = ([], some ("\x7b\"msg\":\"Database Cleared\"\x7d")) := by
  have hc : equalsIgnoreCase (trimString line) ("CLEAR") = true := by
    unfold equalsIgnoreCase
    rw [h]
    decide
  simp [serialClearCmd, hc]

theorem serial_clear_case_insensitive_witness :
    serialClearCmd ("  Clear \n") [⟨[1, 2, 3, 4, 5, 6], -30, 7, 0⟩] =
      ([], some ("\x7b\"msg\":\"Database Cleared\"\x7d")) :=
  serial_clear_case_insensitive _ _ (by decide)

/-- C3: when the observed address is already in the table, the aggregator
unconditionally overwrites the matching record's `rssi` and `lastSeen`
with the new observation's values; in particular (rssi −40, ROUTER)
followed by (same address, rssi −55, STATION) leaves rssi −55 and
classification ROUTER. -/
theorem aggregator_overwrites_rssi_lastSeen
    (tbl : List Device) (pkt : RawPacket) (now : Nat)
    (hmem : pkt.mac ∈ tbl.map Device.mac) :
    (∃ d ∈ processPacket tbl pkt now,
        d.mac = pkt.mac ∧ d.rssi = pkt.rssi ∧ d.lastSeen = now) ∧
    applyAll []
        [(⟨[0xaa, 0xbb, 0xcc, 0xdd, 0xee, 0xff], -40, 1⟩, 100),
         (⟨[0xaa, 0xbb, 0xcc, 0xdd, 0xee, 0xff], -55, 2⟩, 200)] =
      [⟨[0xaa, 0xbb, 0xcc, 0xdd, 0xee, 0xff], -55, 200, 1⟩] := by
  refine ⟨?_, by decide⟩
  induction tbl with
  | nil => simp at hmem
  | cons d rest ih =>
    by_cases hd : d.mac = pkt.mac
    · refine ⟨updateDevice d pkt now, ?_, by simp [updateDevice, hd], rfl, rfl⟩
      simp [processPacket, hd]
    · rw [List.map_cons, List.mem_cons] at hmem
      rcases hmem with hmem | hmem
      · exact absurd hmem.symm hd
      · obtain ⟨e, he, hprop⟩ := ih hmem
        refine ⟨e, ?_, hprop⟩
        simp only [processPacket, if_neg hd, List.mem_cons]
        exact Or.inr he

theorem aggregator_overwrites_rssi_lastSeen_witness :
    ∃ d ∈ processPacket [⟨[1, 2, 3, 4, 5, 6], -30, 7, 0⟩] ⟨[1, 2, 3, 4, 5, 6], -42, 2⟩ 99,
      d.mac = [1, 2, 3, 4, 5, 6] ∧ d.rssi = -42 ∧ d.lastSeen = 99 :=
  (aggregator_overwrites_rssi_lastSeen [⟨[1, 2, 3, 4, 5, 6], -30, 7, 0⟩]
    ⟨[1, 2, 3, 4, 5, 6], -42, 2⟩ 99 (by decide)).1

/-! ### The device table: shape of the upsert and of the export pass -/

theorem processPacket_map_mac (tbl : List Device) (pkt : RawPacket) (now : Nat) :
    (processPacket tbl pkt now).map Device.mac =
      if pkt.mac ∈ tbl.map Device.mac then tbl.map Device.mac
      else tbl.map Device.mac ++ [pkt.mac] := by
  induction tbl with
  | nil => simp [processPacket, mkDevice]
  | cons d rest ih =>
    by_cases hd : d.mac = pkt.mac
    · simp [processPacket, hd, updateDevice]
    · have hd' : ¬ pkt.mac = d.mac := fun h => hd h.symm
      simp only [processPacket, if_neg hd, List.map_cons, ih, List.mem_cons]
      by_cases hm : pkt.mac ∈ rest.map Device.mac
      · simp [hm, hd']
      · simp [hm, hd']

theorem processPacket_nodup_mac (tbl : List Device) (pkt : RawPacket) (now : Nat)
    (h : (tbl.map Device.mac).Nodup) :
    ((processPacket tbl pkt now).map Device.mac).Nodup := by
  rw [processPacket_map_mac]
  split_ifs with hm
  · exact h
  · exact List.Nodup.append h (List.nodup_singleton _)
      (fun x hx hx' => by
        have hxe : x = pkt.mac := by simpa using hx'
        exact hm (hxe ▸ hx))

theorem applyAll_nodup_mac (obs : List (RawPacket × Nat)) (tbl : List Device)
    (h : (tbl.map Device.mac).Nodup) :
    ((applyAll tbl obs).map Device.mac).Nodup := by
  induction obs generalizing tbl with
  | nil => exact h
  | cons p obs ih => exact ih _ (processPacket_nodup_mac tbl p.1 p.2 h)

theorem exportCycle_fst (tbl : List Device) (now : Nat) :
    (exportCycle tbl now).1 = tbl := by
  induction tbl with
  | nil => rfl
  | cons d rest ih => simp [exportCycle, ih]

theorem exportCycle_snd (tbl : List Device) (now : Nat) :
    (exportCycle tbl now).2 =
      tbl.filter (fun d => decide (now - d.lastSeen ≤ PURGE_INTERVAL)) := by
  induction tbl with
  | nil => rfl
  | cons d rest ih =>
    simp only [exportCycle, List.filter_cons, ih]
    by_cases h : PURGE_INTERVAL < now - d.lastSeen
    · rw [if_pos h]
      have h' : ¬ (now - d.lastSeen ≤ PURGE_INTERVAL) := by omega
      simp [h']
    · rw [if_neg h]
      have h' : now - d.lastSeen ≤ PURGE_INTERVAL := by omega
      simp [h']

theorem applyAll_mac_not_mem (obs : List (RawPacket × Nat)) (tbl : List Device) (m : Mac)
    (h : m ∉ tbl.map Device.mac) (hobs : ∀ p ∈ obs, p.1.mac ≠ m) :
    m ∉ (applyAll tbl obs).map Device.mac := by
  induction obs generalizing tbl with
  | nil => exact h
  | cons p obs ih =>
    refine ih _ ?_ (fun q hq => hobs q (List.mem_cons_of_mem _ hq))
    rw [processPacket_map_mac]
    split_ifs with hm
    · exact h
    · simp only [List.mem_append, List.mem_singleton]
      rintro (hmem | rfl)
      · exact h hmem
      · exact hobs p (List.mem_cons_self p obs) rfl

/-- C5: the table holds at most one record per 6-byte address — if the
`mac` column is duplicate-free, it stays duplicate-free after an upsert
(`processPacket`), after any sequence of upserts, after an export's purge
pass, and after `CLEAR`. -/
theorem device_table_unique_mac
    (tbl : List Device) (pkt : RawPacket) (now now' : Nat)
    (obs : List (RawPacket × Nat))
    (h : (tbl.map Device.mac).Nodup) :
    ((processPacket tbl pkt now).map Device.mac).Nodup ∧
    (((exportCycle tbl now').2).map Device.mac).Nodup ∧
    ((applyAll tbl obs).map Device.mac).Nodup ∧
    ((clearTable tbl).map Device.mac).Nodup := by
  refine ⟨processPacket_nodup_mac tbl pkt now h, ?_, applyAll_nodup_mac obs tbl h, by simp [clearTable]⟩
  rw [exportCycle_snd]
  exact h.sublist (List.Sublist.map Device.mac (List.filter_sublist tbl))

theorem device_table_unique_mac_witness :
    ((processPacket [⟨[1, 2, 3, 4, 5, 6], -30, 7, 0⟩] ⟨[7, 7, 7, 7, 7, 7], -42, 2⟩ 99).map
      Device.mac).Nodup :=
  (device_table_unique_mac [⟨[1, 2, 3, 4, 5, 6], -30, 7, 0⟩] ⟨[7, 7, 7, 7, 7, 7], -42, 2⟩
    99 0 [] (by decide)).1

theorem mac_unique_countP (tbl : List Device) (m : Mac)
    (hu : (tbl.map Device.mac).Nodup) (hm : m ∈ tbl.map Device.mac) :
    tbl.countP (fun e => e.mac == m) = 1 := by
  induction tbl with
  | nil => simp at hm
  | cons d rest ih =>
    rw [List.map_cons, List.nodup_cons] at hu
    rw [List.map_cons, List.mem_cons] at hm
    by_cases hd : d.mac = m
    · rw [List.countP_cons_of_pos _ _ (by simp [hd])]
      have : rest.countP (fun e => e.mac == m) = 0 :=
        List.countP_eq_zero.mpr (fun e he hpe => by
          have : e.mac = m := by simpa using hpe
          exact hu.1 (hd ▸ this ▸ List.mem_map_of_mem Device.mac he))
      omega
    · rw [List.countP_cons_of_neg _ _ (by simp [hd])]
      exact ih hu.2 (hm.resolve_left (fun h => hd h.symm))

theorem stale_mac_not_in_purged (tbl : List Device) (d : Device) (now : Nat)
    (hd : d ∈ tbl) (hu : (tbl.map Device.mac).Nodup)
    (hstale : PURGE_INTERVAL < now - d.lastSeen) :
    d.mac ∉ ((exportCycle tbl now).2).map Device.mac := by
  induction tbl with
  | nil => simp at hd
  | cons e rest ih =>
    rw [List.map_cons, List.nodup_cons] at hu
    have hsub : ∀ m : Mac, m ∈ ((exportCycle rest now).2).map Device.mac →
        m ∈ rest.map Device.mac := fun m hm => by
      rw [exportCycle_snd] at hm
      exact (List.Sublist.map Device.mac (List.filter_sublist rest)).mem hm
    rcases List.mem_cons.mp hd with rfl | hd'
    · show d.mac ∉ ((exportCycle (d :: rest) now).2).map Device.mac
      simp only [exportCycle, if_pos hstale]
      exact fun hmem => hu.1 (hsub _ hmem)
    · have hdm : d.mac ∈ rest.map Device.mac := List.mem_map_of_mem Device.mac hd'
      show d.mac ∉ ((exportCycle (e :: rest) now).2).map Device.mac
      simp only [exportCycle]
      split_ifs with h
      · exact ih hd' hu.2
      · simp only [List.map_cons, List.mem_cons]
        rintro (heq | hmem)
        · exact hu.1 (heq ▸ hdm)
        · exact ih hd' hu.2 hmem

/-- C4: during an export cycle at time `now`, a record whose age exceeds
the purge threshold is included in that cycle's snapshot (exactly once,
given the address-uniqueness invariant) and removed from the table, so its
address is absent from the table after any further aggregation that does
not re-observe it — hence absent from every subsequent snapshot; records
whose age does not exceed the threshold are retained. -/
theorem export_stale_included_once_then_purged
    (tbl : List Device) (now : Nat) (obs : List (RawPacket × Nat)) (d : Device)
    (hd : d ∈ tbl) (hstale : PURGE_INTERVAL < now - d.lastSeen)
    (hu : (tbl.map Device.mac).Nodup)
    (hobs : ∀ p ∈ obs, p.1.mac ≠ d.mac) :
    (exportCycle tbl now).1 = tbl ∧
    ((exportCycle tbl now).1.countP (fun e => e.mac == d.mac)) = 1 ∧
    d.mac ∉ (applyAll ((exportCycle tbl now).2) obs).map Device.mac ∧
    (∀ e ∈ tbl, now - e.lastSeen ≤ PURGE_INTERVAL → e ∈ (exportCycle tbl now).2) := by
  refine ⟨exportCycle_fst tbl now, ?_, ?_, ?_⟩
  · rw [exportCycle_fst]
    exact mac_unique_countP tbl d.mac hu (List.mem_map_of_mem Device.mac hd)
  · exact applyAll_mac_not_mem obs _ d.mac (stale_mac_not_in_purged tbl d now hd hu hstale) hobs
  · intro e he hfresh
    rw [exportCycle_snd]
    exact List.mem_filter.mpr ⟨he, by simpa using hfresh⟩

theorem export_stale_included_once_then_purged_witness :
    (exportCycle [⟨[1, 2, 3, 4, 5, 6], -50, 0, 1⟩] 10001).1 = [⟨[1, 2, 3, 4, 5, 6], -50, 0, 1⟩] ∧
    ((exportCycle [⟨[1, 2, 3, 4, 5, 6], -50, 0, 1⟩] 10001).1.countP
      (fun e => e.mac == [1, 2, 3, 4, 5, 6])) = 1 ∧
    [1, 2, 3, 4, 5, 6] ∉
      (applyAll ((exportCycle [⟨[1, 2, 3, 4, 5, 6], -50, 0, 1⟩] 10001).2)
        [(⟨[9, 9, 9, 9, 9, 9], -1, 0⟩, 10002)]).map Device.mac ∧
    (∀ e ∈ [(⟨[1, 2, 3, 4, 5, 6], -50, 0, 1⟩ : Device)], 10001 - e.lastSeen ≤ PURGE_INTERVAL →
      e ∈ (exportCycle [⟨[1, 2, 3, 4, 5, 6], -50, 0, 1⟩] 10001).2) :=
  export_stale_included_once_then_purged [⟨[1, 2, 3, 4, 5, 6], -50, 0, 1⟩] 10001
    [(⟨[9, 9, 9, 9, 9, 9], -1, 0⟩, 10002)] ⟨[1, 2, 3, 4, 5, 6], -50, 0, 1⟩
    (by decide) (by decide) (by decide) (by decide)

/-! ### The escalation rule as the maximum under the priority order -/

theorem rank_lt_four (c : Nat) : rank c < 4 := by
  unfold rank
  split_ifs <;> omega

theorem rank_unrank (r : Nat) (h : r < 4) : rank (unrank r) = r := by
  interval_cases r <;> decide

theorem unrank_rank (c : Nat) (h : c < 4) : unrank (rank c) = c := by
  interval_cases c <;> decide

theorem escalate_eq_unrank_max (a b : Nat) (ha : a < 4) (hb : b < 4) :
    escalate a b = unrank (max (rank a) (rank b)) := by
  interval_cases a <;> interval_cases b <;> decide

theorem escalate_lt_four (a b : Nat) (ha : a < 4) (hb : b < 4) : escalate a b < 4 := by
  rw [escalate_eq_unrank_max a b ha hb]
  unfold unrank
  split_ifs <;> omega

theorem escalate_deauth_sticky (c : Nat) : escalate 3 c = 3 := by
  unfold escalate
  split_ifs with h1 h2
  · rfl
  · exact absurd h2.1 (by simp)
  · rfl

theorem foldl_max_base_le (l : List Nat) (b : Nat) :
    b ≤ l.foldl (fun r c => max r (rank c)) b := by
  induction l generalizing b with
  | nil => exact Nat.le_refl b
  | cons c l ih => exact Nat.le_trans (Nat.le_max_left _ _) (ih _)

theorem foldl_max_elem_le (l : List Nat) (b : Nat) :
    ∀ c ∈ l, rank c ≤ l.foldl (fun r c => max r (rank c)) b := by
  induction l generalizing b with
  | nil => intro c hc; simp at hc
  | cons x l ih =>
    intro c hc
    rcases List.mem_cons.mp hc with rfl | hc'
    · exact Nat.le_trans (Nat.le_max_right b _) (foldl_max_base_le l _)
    · exact ih _ c hc'

theorem foldl_max_attained (l : List Nat) (b : Nat) :
    l.foldl (fun r c => max r (rank c)) b = b ∨
      ∃ c ∈ l, l.foldl (fun r c => max r (rank c)) b = rank c := by
  induction l generalizing b with
  | nil => exact Or.inl rfl
  | cons x l ih =>
    rcases ih (max b (rank x)) with h | ⟨c, hc, h⟩
    · rcases max_choice b (rank x) with hm | hm
      · exact Or.inl (by simp only [List.foldl_cons]; rw [h, hm])
      · exact Or.inr ⟨x, List.mem_cons_self x l, by simp only [List.foldl_cons]; rw [h, hm]⟩
    · exact Or.inr ⟨c, List.mem_cons_of_mem x hc, by simp only [List.foldl_cons]; rw [h]⟩

theorem foldl_max_lt_four (l : List Nat) (b : Nat) (hb : b < 4) :
    l.foldl (fun r c => max r (rank c)) b < 4 := by
  induction l generalizing b with
  | nil => exact hb
  | cons c l ih => exact ih _ (Nat.max_lt.mpr ⟨hb, rank_lt_four c⟩)

theorem foldl_escalate_eq_unrank (l : List Nat) (c0 : Nat) (h0 : c0 < 4)
    (hl : ∀ c ∈ l, c < 4) :
    l.foldl escalate c0 = unrank (l.foldl (fun r c => max r (rank c)) (rank c0)) := by
  induction l generalizing c0 with
  | nil => exact (unrank_rank c0 h0).symm
  | cons c l ih =>
    have hc : c < 4 := hl c (List.mem_cons_self c l)
    have hmax : max (rank c0) (rank c) < 4 :=
      Nat.max_lt.mpr ⟨rank_lt_four c0, rank_lt_four c⟩
    simp only [List.foldl_cons]
    rw [ih (escalate c0 c) (escalate_lt_four c0 c h0 hc)
        (fun x hx => hl x (List.mem_cons_of_mem c hx))]
    congr 2
    rw [escalate_eq_unrank_max c0 c h0 hc, rank_unrank _ hmax]

theorem foldl_max_perm {l₁ l₂ : List Nat} (p : l₁.Perm l₂) (b : Nat) :
    l₁.foldl (fun r c => max r (rank c)) b = l₂.foldl (fun r c => max r (rank c)) b := by
  induction p generalizing b with
  | nil => rfl
  | cons x _ ih => simp only [List.foldl_cons]; exact ih _
  | swap x y l =>
    simp only [List.foldl_cons]
    rw [Nat.max_assoc, Nat.max_comm (rank y) (rank x), ← Nat.max_assoc]
  | trans _ _ ih₁ ih₂ => exact (ih₁ b).trans (ih₂ b)

theorem applyAll_single_addr (obs : List (RawPacket × Nat)) (d : Device)
    (hm : ∀ p ∈ obs, p.1.mac = d.mac) :
    ∃ d', applyAll [d] obs = [d'] ∧ d'.mac = d.mac ∧
      d'.typeCode = obs.foldl (fun c p => escalate c p.1.typeCode) d.typeCode := by
  induction obs generalizing d with
  | nil => exact ⟨d, rfl, rfl, rfl⟩
  | cons p obs ih =>
    have hpd : p.1.mac = d.mac := hm p (List.mem_cons_self p obs)
    have hstep : applyAll [d] (p :: obs) = applyAll [updateDevice d p.1 p.2] obs := by
      simp only [applyAll, List.foldl_cons]
      congr 1
      simp [processPacket, hpd.symm]
    obtain ⟨d', h1, h2, h3⟩ := ih (updateDevice d p.1 p.2)
      (fun q hq => by rw [hm q (List.mem_cons_of_mem _ hq)]; rfl)
    exact ⟨d', hstep ▸ h1, h2, h3⟩

theorem applyAll_single_addr_typeCode (p : RawPacket × Nat) (rest : List (RawPacket × Nat))
    (hm : ∀ q ∈ rest, q.1.mac = p.1.mac)
    (hv : ∀ q ∈ p :: rest, q.1.typeCode < 4) :
    ∃ d, applyAll [] (p :: rest) = [d] ∧ d.mac = p.1.mac ∧
      d.typeCode = unrank (maxRankFold ((p :: rest).map (fun q => q.1.typeCode))) := by
  obtain ⟨d, h1, h2, h3⟩ := applyAll_single_addr rest (mkDevice p.1 p.2) hm
  refine ⟨d, h1, h2, ?_⟩
  have hv0 : p.1.typeCode < 4 := hv p (List.mem_cons_self p rest)
  have hvr : ∀ c ∈ rest.map (fun q => q.1.typeCode), c < 4 := by
    intro c hc
    obtain ⟨q, hq, rfl⟩ := List.mem_map.mp hc
    exact hv q (List.mem_cons_of_mem p hq)
  calc d.typeCode
      = rest.foldl (fun c q => escalate c q.1.typeCode) p.1.typeCode := h3
    _ = (rest.map (fun q => q.1.typeCode)).foldl escalate p.1.typeCode :=
        (List.foldl_map _ _ _ _).symm
    _ = unrank ((rest.map (fun q => q.1.typeCode)).foldl
          (fun r c => max r (rank c)) (rank p.1.typeCode)) :=
        foldl_escalate_eq_unrank _ _ hv0 hvr
    _ = unrank (maxRankFold ((p :: rest).map (fun q => q.1.typeCode))) := by
        unfold maxRankFold
        simp only [List.map_cons, List.foldl_cons, Nat.zero_max]

/-- C1: for every nonempty sequence of observations of one address, the
aggregator leaves a single record whose classification is the maximum of
all observed classifications under the priority order
DEAUTH > ROUTER > STATION > UNKNOWN (it occurs among the observations and
its rank dominates every other), the value is independent of arrival
order, and DEAUTH is sticky: `escalate 3 c = 3` for every `c`. -/
theorem aggregator_priority_max_order_independent
    (obs obs' : List (RawPacket × Nat)) (m : Mac)
    (hne : obs ≠ [])
    (hm : ∀ p ∈ obs, p.1.mac = m)
    (hv : ∀ p ∈ obs, p.1.typeCode < 4)
    (hperm : obs.Perm obs') :
    ∃ d d', applyAll [] obs = [d] ∧ applyAll [] obs' = [d'] ∧
      d.typeCode ∈ obs.map (fun p => p.1.typeCode) ∧
      (∀ c ∈ obs.map (fun p => p.1.typeCode), rank c ≤ rank d.typeCode) ∧
      d'.typeCode = d.typeCode ∧
      (∀ c, escalate 3 c = 3) := by
  match obs, hne with
  | p :: rest, _ =>
    obtain ⟨d, hd1, hd2, hd3⟩ := applyAll_single_addr_typeCode p rest
      (fun q hq => (hm q (List.mem_cons_of_mem p hq)).trans (hm p (List.mem_cons_self p rest)).symm)
      hv
    have hne' : obs' ≠ [] := by
      intro hnil
      have := hperm.length_eq
      rw [hnil] at this
      simp at this
    match obs', hne' with
    | q :: rest', _ =>
      have hm' : ∀ r ∈ q :: rest', r.1.mac = m := fun r hr => hm r (hperm.mem_iff.mpr hr)
      have hv' : ∀ r ∈ q :: rest', r.1.typeCode < 4 := fun r hr => hv r (hperm.mem_iff.mpr hr)
      obtain ⟨d', he1, he2, he3⟩ := applyAll_single_addr_typeCode q rest'
        (fun r hr => (hm' r (List.mem_cons_of_mem q hr)).trans
          (hm' q (List.mem_cons_self q rest')).symm)
        hv'
      have hvc : ∀ c ∈ (p :: rest).map (fun r => r.1.typeCode), c < 4 := by
        intro c hc
        obtain ⟨r, hr, rfl⟩ := List.mem_map.mp hc
        exact hv r hr
      have hM4 : maxRankFold ((p :: rest).map (fun r => r.1.typeCode)) < 4 :=
        foldl_max_lt_four _ 0 (by omega)
      refine ⟨d, d', hd1, he1, ?_, ?_, ?_, escalate_deauth_sticky⟩
      · rcases foldl_max_attained ((p :: rest).map (fun r => r.1.typeCode)) 0 with h0 | ⟨c, hc, hc'⟩
        · have hple : rank p.1.typeCode ≤ 0 := by
            have := foldl_max_elem_le ((p :: rest).map (fun r => r.1.typeCode)) 0
              p.1.typeCode (by simp)
            unfold maxRankFold at *
            omega
          have : maxRankFold ((p :: rest).map (fun r => r.1.typeCode)) = rank p.1.typeCode := by
            unfold maxRankFold
            omega
          rw [hd3, this, unrank_rank _ (hv p (List.mem_cons_self p rest))]
          simp
        · rw [hd3]
          unfold maxRankFold
          rw [hc', unrank_rank _ (hvc c hc)]
          exact hc
      · intro c hc
        rw [hd3, rank_unrank _ hM4]
        exact foldl_max_elem_le _ 0 c hc
      · rw [hd3, he3]
        congr 1
        unfold maxRankFold
        exact (foldl_max_perm (hperm.map (fun r => r.1.typeCode)) 0).symm

theorem aggregator_priority_max_witness :
    ∃ d d' : Device,
      applyAll [] ([(⟨[1, 2, 3, 4, 5, 6], -40, 2⟩, 5), (⟨[1, 2, 3, 4, 5, 6], -41, 1⟩, 6)] :
        List (RawPacket × Nat)) = [d] ∧
      applyAll [] ([(⟨[1, 2, 3, 4, 5, 6], -41, 1⟩, 6), (⟨[1, 2, 3, 4, 5, 6], -40, 2⟩, 5)] :
        List (RawPacket × Nat)) = [d'] ∧
      d.typeCode ∈ ([(⟨[1, 2, 3, 4, 5, 6], -40, 2⟩, 5), (⟨[1, 2, 3, 4, 5, 6], -41, 1⟩, 6)] :
        List (RawPacket × Nat)).map (fun p => p.1.typeCode) ∧
      (∀ c ∈ ([(⟨[1, 2, 3, 4, 5, 6], -40, 2⟩, 5), (⟨[1, 2, 3, 4, 5, 6], -41, 1⟩, 6)] :
        List (RawPacket × Nat)).map (fun p => p.1.typeCode),
        rank c ≤ rank d.typeCode) ∧
      d'.typeCode = d.typeCode ∧
      (∀ c, escalate 3 c = 3) :=
  aggregator_priority_max_order_independent
    [(⟨[1, 2, 3, 4, 5, 6], -40, 2⟩, 5), (⟨[1, 2, 3, 4, 5, 6], -41, 1⟩, 6)]
    [(⟨[1, 2, 3, 4, 5, 6], -41, 1⟩, 6), (⟨[1, 2, 3, 4, 5, 6], -40, 2⟩, 5)]
    [1, 2, 3, 4, 5, 6]
    (by decide) (by decide) (by decide) (by decide)

/-! ### The serialized snapshot format -/

theorem macToString_parts (a b c d e f : Nat) :
    macToString [a, b, c, d, e, f] =
      hexPair a ++ (":") ++ hexPair b ++ (":") ++ hexPair c ++ (":") ++
        hexPair d ++ (":") ++ hexPair e ++ (":") ++ hexPair f := by
  have hr : List.range 6 = [0, 1, 2, 3, 4, 5] := rfl
  apply String.ext
  simp [macToString, hexPair, hr, String.data_append, List.append_assoc]

theorem hexChar_mem_alphabet (n : Nat) (h : n < 16) :
    hexChar n ∈ ("0123456789abcdef").data := by
  interval_cases n <;> decide

theorem hexPair_length (b : Nat) : (hexPair b).length = 2 := by
  unfold hexPair byteHex
  by_cases h : b < 16
  · rw [if_pos h, if_pos h]
    rfl
  · rw [if_neg h, if_neg h]
    rfl

theorem hexPair_chars (b : Nat) (hb : b < 256) :
    ∀ ch ∈ (hexPair b).data, ch ∈ ("0123456789abcdef").data := by
  unfold hexPair byteHex
  by_cases h : b < 16
  · rw [if_pos h, if_pos h]
    intro ch hch
    simp only [String.data_append] at hch
    rcases (by simpa using hch : ch = '0' ∨ ch = hexChar b) with rfl | rfl
    · decide
    · exact hexChar_mem_alphabet b h
  · have h1 : b / 16 < 16 := by omega
    have h2 : b % 16 < 16 := Nat.mod_lt _ (by norm_num)
    rw [if_neg h, if_neg h]
    intro ch hch
    simp only [String.data_append] at hch
    rcases (by simpa using hch : ch = hexChar (b / 16) ∨ ch = hexChar (b % 16)) with rfl | rfl
    · exact hexChar_mem_alphabet _ h1
    · exact hexChar_mem_alphabet _ h2

theorem typeString_cases (tc : Nat) :
    typeString tc ∈ (["ROUTER", "STATION", "DEAUTH", "Unknown"] : List String) := by
  unfold typeString
  split_ifs <;> simp

/-- C9: each export cycle serializes one mapping with single field
`devices` listing, for every record included, an object with exactly the
fields `mac` (six colon-separated lowercase two-hex-digit octets), `rssi`
(signed integer), `type` (one of the four literal strings, determined by
the record's type code), and `seen_ms` (unsigned ms since last
observation at export time). -/
theorem export_snapshot_wire_format (tbl : List Device) (now : Nat)
    (hm : ∀ d ∈ tbl, d.mac.length = 6 ∧ ∀ b ∈ d.mac, b < 256) :
    snapshotJson ((exportCycle tbl now).1) now =
      "\x7b\"devices\":[" ++
        String.intercalate (",") (tbl.map (fun d => deviceJson d now)) ++ "]\x7d" ∧
    (∀ d ∈ tbl,
      deviceJson d now =
        "\x7b\"mac\":\"" ++ macToString d.mac ++ "\",\"rssi\":" ++ toString d.rssi ++
          ",\"type\":\"" ++ typeString d.typeCode ++ "\",\"seen_ms\":" ++
          toString (now - d.lastSeen) ++ "\x7d" ∧
      (∃ p0 p1 p2 p3 p4 p5 : String,
        macToString d.mac =
          p0 ++ (":") ++ p1 ++ (":") ++ p2 ++ (":") ++ p3 ++ (":") ++ p4 ++ (":") ++ p5 ∧
        ∀ s ∈ [p0, p1, p2, p3, p4, p5], s.length = 2 ∧
          ∀ ch ∈ s.data, ch ∈ ("0123456789abcdef").data) ∧
      typeString d.typeCode ∈ (["ROUTER", "STATION", "DEAUTH", "Unknown"] : List String)) ∧
    (typeString 1 = "ROUTER" ∧ typeString 2 = "STATION" ∧
      typeString 3 = "DEAUTH" ∧ typeString 0 = "Unknown") := by
  refine ⟨by rw [exportCycle_fst]; rfl, ?_, rfl, rfl, rfl, rfl⟩
  intro d hd
  refine ⟨rfl, ?_, typeString_cases d.typeCode⟩
  obtain ⟨hlen, hbytes⟩ := hm d hd
  obtain ⟨a, b, c, e, f, g, hmac⟩ :
      ∃ a b c e f g : Nat, d.mac = [a, b, c, e, f, g] := by
    obtain ⟨l, hl⟩ : ∃ l, d.mac = l := ⟨d.mac, rfl⟩
    rw [hl] at hlen
    rcases l with _ | ⟨a, _ | ⟨b, _ | ⟨c, _ | ⟨e, _ | ⟨f, _ | ⟨g, rest⟩⟩⟩⟩⟩⟩ <;> simp at hlen
    exact ⟨a, b, c, e, f, g, by rw [hl, hlen]⟩
  rw [hmac] at hbytes ⊢
  refine ⟨hexPair a, hexPair b, hexPair c, hexPair e, hexPair f, hexPair g,
    macToString_parts a b c e f g, ?_⟩
  intro s hs
  have hb : ∀ x ∈ [a, b, c, e, f, g], x < 256 := hbytes
  rcases (by simpa using hs :
      s = hexPair a ∨ s = hexPair b ∨ s = hexPair c ∨
      s = hexPair e ∨ s = hexPair f ∨ s = hexPair g) with
    rfl | rfl | rfl | rfl | rfl | rfl
  · exact ⟨hexPair_length a, hexPair_chars a (hb a (by simp))⟩
  · exact ⟨hexPair_length b, hexPair_chars b (hb b (by simp))⟩
  · exact ⟨hexPair_length c, hexPair_chars c (hb c (by simp))⟩
  · exact ⟨hexPair_length e, hexPair_chars e (hb e (by simp))⟩
  · exact ⟨hexPair_length f, hexPair_chars f (hb f (by simp))⟩
  · exact ⟨hexPair_length g, hexPair_chars g (hb g (by simp))⟩

theorem export_snapshot_wire_format_witness :
    snapshotJson ((exportCycle [⟨[0xaa, 0xbb, 0xcc, 0xdd, 0xee, 0xff], -40, 0, 1⟩] 5).1) 5 =
      "\x7b\"devices\":[" ++
        String.intercalate (",")
          ([⟨[0xaa, 0xbb, 0xcc, 0xdd, 0xee, 0xff], -40, 0, 1⟩].map
            (fun d => deviceJson d 5)) ++ "]\x7d" :=
  (export_snapshot_wire_format [⟨[0xaa, 0xbb, 0xcc, 0xdd, 0xee, 0xff], -40, 0, 1⟩] 5
    (by decide)).1

end Sniffer
